import Mathlib

/-!
Shallow embedding of the timing-synchronized overlay composition core of the
Reddit video bot (src/tts_generator.py, src/video_composer.py, src/main.py),
with theorems settling the specification claims about it.

Modelling conventions: Python floats are exact rationals; Python strings are
Lean strings, with ASCII whitespace standing for the Python whitespace set;
file, network and audio side effects are elided, while every pure computation
on timings, text and layout is translated statement by statement from the
source.
-/

/-- Python text.strip() on the underlying character list: remove leading and
trailing whitespace. -/
def stripChars (l : List Char) : List Char :=
  ((l.dropWhile Char.isWhitespace).reverse.dropWhile Char.isWhitespace).reverse

/-- Python text.strip() on strings. -/
def pyStrip (s : String) : String := String.mk (stripChars s.data)

/-- Python str.split() with no separator argument: maximal runs of
non-whitespace characters. The flag records whether the accumulator holds a
word currently being read. -/
def tokenize : List Char → Bool → List Char → List (List Char)
  | [], inWord, acc => if inWord then [acc.reverse] else []
  | c :: rest, inWord, acc =>
    if c.isWhitespace then
      if inWord then acc.reverse :: tokenize rest false []
      else tokenize rest false []
    else
      tokenize rest true (c :: acc)

/-- Python s.split() for a string. -/
def pySplitWs (s : String) : List String := (tokenize s.data false []).map String.mk

/-- The three sentence-terminal characters of the segmentation code. -/
def isEnderChar (c : Char) : Bool := c == '.' || c == '!' || c == '?'

/-- Python re.split with the pattern "lookbehind sentence ender, then one or
more whitespace characters", on the character list: split at each maximal
whitespace run whose preceding character is a sentence ender. The first flag
records that the current whitespace run is being consumed; the second records
whether the previously read character was a sentence ender. -/
def sentSplitGo : List Char → Bool → Bool → List Char → List (List Char)
  | [], _, _, acc => [acc.reverse]
  | c :: rest, skipping, prevEnder, acc =>
    if skipping then
      if c.isWhitespace then sentSplitGo rest true false acc
      else sentSplitGo rest false (isEnderChar c) [c]
    else if prevEnder && c.isWhitespace then
      acc.reverse :: sentSplitGo rest true false []
    else
      sentSplitGo rest false (isEnderChar c) (c :: acc)

/-- Sentence splitting of _estimate_segments: regex split of the stripped
text, then dropping empty strings. -/
def splitSentences (text : String) : List String :=
  ((sentSplitGo (stripChars text.data) false false []).map String.mk).filter
    (fun s => !(s == ""))

/-- Word boundary event recorded from the speech engine stream, offsets
already converted to seconds (tts_generator.py lines 113-118). -/
structure WordTiming where
  text : String
  start : ℚ
  duration : ℚ
deriving DecidableEq

/-- TTSSegment of tts_generator.py. The audio_file bookkeeping field is pure
I/O and is not modelled. -/
structure TTSSegment where
  text : String
  start_time : ℚ
  end_time : ℚ
deriving DecidableEq

/-- TTSResult of tts_generator.py, minus the audio file reference. -/
structure TTSResult where
  segments : List TTSSegment
  total_duration : ℚ
deriving DecidableEq

/-- word_counts of _estimate_segments: words per split sentence. -/
def sentenceWordCounts (text : String) : List ℕ :=
  (splitSentences text).map (fun s => (pySplitWs s).length)

/-- total_words of _estimate_segments before the zero guard. -/
def totalWords (text : String) : ℕ := (sentenceWordCounts text).sum

/-- total_words after the zero guard: if it is 0 it is replaced by 1. -/
def estDenominator (text : String) : ℕ :=
  if totalWords text = 0 then 1 else totalWords text

/-- Allocation loop of _estimate_segments: walks the sentence and word-count
pairs keeping the running current_time cursor; each sentence gets a duration
proportional to its word count. -/
def allocLoop : List (String × ℕ) → ℕ → ℚ → ℚ → List TTSSegment
  | [], _, _, _ => []
  | (s, wc) :: rest, tw, total, t =>
    ⟨s, t, t + (wc : ℚ) / (tw : ℚ) * total⟩ ::
      allocLoop rest tw total (t + (wc : ℚ) / (tw : ℚ) * total)

/-- _estimate_segments(text, total_duration) of tts_generator.py. -/
def estimateSegments (text : String) (total_duration : ℚ) : List TTSSegment :=
  if (splitSentences text).isEmpty then
    [⟨text, 0, total_duration⟩]
  else
    allocLoop ((splitSentences text).zip (sentenceWordCounts text))
      (estDenominator text) total_duration 0

/-- The Python loop condition any(word.endswith(p) for p in sentence_enders)
over the three one-character enders: the word ends with one of them. -/
def isSentenceEnd (w : String) : Bool :=
  match w.data.getLast? with
  | some c => isEnderChar c
  | none => false

/-- Start of the first word of a word list; the value for the empty list is
irrelevant because the loop below then stops. -/
def restStart : List WordTiming → ℚ
  | [] => 0
  | next :: _ => next.start

/-- Main loop of _create_segments_from_timings: words accumulate into the
running text, each followed by one space; a segment closes at a word that is
a sentence end or is last, with end time start+duration of that word and the
running text stripped; the start cursor begins at 0 and after a close it is
reset to the start of the word that follows (when no word follows, the loop
runs out on the empty list, so the reset value never reaches a segment). -/
def segLoop : List WordTiming → String → ℚ → List TTSSegment
  | [], _, _ => []
  | w :: rest, cur, segStart =>
    if isSentenceEnd w.text || rest.isEmpty then
      ⟨pyStrip (cur ++ w.text ++ " "), segStart, w.start + w.duration⟩ ::
        segLoop rest "" (restStart rest)
    else
      segLoop rest (cur ++ w.text ++ " ") segStart

/-- _create_segments_from_timings(text, word_timings) of tts_generator.py. -/
def createSegmentsFromTimings (text : String) (word_timings : List WordTiming) :
    List TTSSegment :=
  if word_timings.isEmpty then estimateSegments text 5
  else segLoop word_timings "" 0

/-- total_duration of the Edge-TTS path (tts_generator.py lines 121-124): the
end of the last word boundary, and 0 when no word boundary events arrived. -/
def edgeTTSTotalDuration (word_timings : List WordTiming) : ℚ :=
  match word_timings.getLast? with
  | some w => w.start + w.duration
  | none => 0

/-- Pure content of _generate_edge_tts: segments from the word timings and
the total duration from the last word boundary. -/
def edgeTTSResult (text : String) (word_timings : List WordTiming) : TTSResult :=
  ⟨createSegmentsFromTimings text word_timings, edgeTTSTotalDuration word_timings⟩

/-- Pure content of _generate_gtts: the total duration is measured from the
produced audio file and passed in here; segments are estimated from it. -/
def gttsResult (text : String) (measured_duration : ℚ) : TTSResult :=
  ⟨estimateSegments text measured_duration, measured_duration⟩

/-- Loop body of generate_with_pause: one punchline segment shifted forward
by the offset, text unchanged. -/
def shiftSeg (offset : ℚ) (s : TTSSegment) : TTSSegment :=
  ⟨s.text, s.start_time + offset, s.end_time + offset⟩

/-- Segment and duration combination of generate_with_pause (audio mixing
elided): setup segments kept, punchline segments shifted forward by
setup.total_duration + pause_duration, total duration the sum of all three. -/
def generateWithPause (setup punchline : TTSResult) (pause_duration : ℚ) : TTSResult :=
  ⟨setup.segments ++
      punchline.segments.map (shiftSeg (setup.total_duration + pause_duration)),
   setup.total_duration + pause_duration + punchline.total_duration⟩

/-- Output duration rule of compose_video (video_composer.py lines 362-365):
total_duration = max(10.0, tts_result.total_duration + 2.0). -/
def composeVideoDuration (audio_duration : ℚ) : ℚ :=
  max 10 (audio_duration + 2)

/-- Layout fields of VideoConfig (colors and fps do not enter any layout
computation and are not modelled). -/
structure VideoConfig where
  width : ℕ := 1080
  height : ℕ := 1920
  card_width : ℕ := 980
  card_margin : ℕ := 50
  card_radius : ℕ := 24
deriving DecidableEq

/-- text_height of create_tweet_card: max(len(lines) * line_height, 120),
with line_height = 62. -/
def cardTextHeight (line_count : ℕ) : ℕ := max (line_count * 62) 120

/-- total_height of create_tweet_card: header_height + text_height +
footer_height + padding * 2, with header 90, footer 70, padding 40. -/
def cardTotalHeight (line_count : ℕ) : ℕ :=
  90 + cardTextHeight line_count + 70 + 40 * 2

/-- Drawn content of one tweet card. Pixel rasterization by the imaging
library is elided; the record gathers every datum the drawing code puts on
the card, so two cards are equal exactly when the drawn images agree. -/
structure TweetCard where
  display_name : String
  handle : String
  avatar_letter : String
  lines : List String
  highlight_last : Bool
  comments : String
  retweets : String
  likes : String
  views : String
  width : ℕ
  height : ℕ
deriving DecidableEq

/-- create_tweet_card of video_composer.py. The lines argument is the output
of the external textwrap library on the input text; views_rand is the value
returned by the call to randint(100, 500) on the global random generator at
draw time (line 266); width and height follow the sizing code with shadow
offset 8 on each side. -/
def createTweetCard (cfg : VideoConfig) (lines : List String)
    (display_name handle likes retweets comments : String)
    (highlight_last : Bool) (views_rand : ℕ) : TweetCard :=
  { display_name := display_name
    handle := handle
    avatar_letter :=
      match display_name.data with
      | [] => "U"
      | c :: _ => String.mk [c.toUpper]
    lines := lines
    highlight_last := highlight_last
    comments := comments
    retweets := retweets
    likes := likes
    views := Nat.repr views_rand ++ "K"
    width := cfg.card_width + 8 * 2
    height := cardTotalHeight lines.length + 8 * 2 }

/-- Persistent dedup ledger of main.py (history.json). Saving to disk is
modelled by the state value itself: every _save_history call persists the
current value. -/
structure BotState where
  generated_posts : List String
  uploaded_videos : List String
deriving DecidableEq

/-- _is_already_generated of main.py. -/
def isAlreadyGenerated (st : BotState) (post_id : String) : Bool :=
  st.generated_posts.contains post_id

/-- fetch_joke of main.py: top is what get_top_joke returned, more is what
get_multiple_jokes(count=10) returns when consulted; an already generated top
result is replaced by the first unused alternative, or the run is skipped. -/
def fetchJoke (st : BotState) (top : Option String) (more : List String) :
    Option String :=
  match top with
  | none => none
  | some j =>
    if isAlreadyGenerated st j then
      more.find? (fun x => !(isAlreadyGenerated st x))
    else some j

/-- run_pipeline of main.py: returns the new ledger state and the id
published in this run, if any. publish_ok models whether the upload call
raised. Audio and video generation side effects are elided; the ledger gains
the id and is saved right after video generation, before any upload attempt. -/
def runPipeline (st : BotState) (top : Option String) (more : List String)
    (upload publish_ok : Bool) : BotState × Option String :=
  match fetchJoke st top more with
  | none => (st, none)
  | some pid =>
    if upload && publish_ok then
      (⟨st.generated_posts ++ [pid], st.uploaded_videos ++ [pid]⟩, some pid)
    else
      (⟨st.generated_posts ++ [pid], st.uploaded_videos⟩, none)

/-- Grouping of the word stream into sentence groups, following the spec
wording for the Segmenter: a group closes at a word ending in a sentence
ender or at the last word. A group is nonempty, held as head and tail. -/
def groupWords : List WordTiming → List (WordTiming × List WordTiming)
  | [] => []
  | w :: rest =>
    if isSentenceEnd w.text || rest.isEmpty then
      (w, []) :: groupWords rest
    else
      match groupWords rest with
      | [] => [(w, [])]
      | g :: gs => (w, g.1 :: g.2) :: gs

/-- The words of one group, in order. -/
def groupMembers (g : WordTiming × List WordTiming) : List WordTiming :=
  g.1 :: g.2

/-- The last word of a group. -/
def groupLastWord (g : WordTiming × List WordTiming) : WordTiming :=
  g.2.getLastD g.1

/-- Running text of one group as the source loop builds it, starting from a
given accumulator. -/
def groupRawText (cur : String) (g : WordTiming × List WordTiming) : String :=
  (groupMembers g).foldl (fun a w => a ++ w.text ++ " ") cur

/-- Start of the first word of the first group, 0 when there is none: the
spec phrase that the next segment starts at the start of the following word. -/
def firstGroupStart : List (WordTiming × List WordTiming) → ℚ
  | [] => 0
  | g :: _ => g.1.start

/-- Reference segment builder following the spec wording, amended for the
initial cursor: each group yields one segment whose end time is
start + duration of its last word; the first segment starts at the given
cursor and each later segment starts at the start of the first word of its
own group. -/
def buildSegAux : List (WordTiming × List WordTiming) → String → ℚ → List TTSSegment
  | [], _, _ => []
  | g :: gs, cur, s =>
    ⟨pyStrip (groupRawText cur g), s,
        (groupLastWord g).start + (groupLastWord g).duration⟩ ::
      buildSegAux gs "" (firstGroupStart gs)

/-- Words joined by single spaces: the whitespace-normal form of a word
sequence used to compare texts. -/
def sepConcat : List String → String
  | [] => ""
  | [w] => w
  | w :: x :: ws => w ++ " " ++ sepConcat (x :: ws)

/-- A word token: nonempty and free of whitespace characters. -/
def cleanWord (w : String) : Prop :=
  w.data ≠ [] ∧ ∀ c ∈ w.data, c.isWhitespace = false

instance (w : String) : Decidable (cleanWord w) := by
  unfold cleanWord; exact inferInstance

/-- Segment list ordered by start time. -/
abbrev sortedByStart (l : List TTSSegment) : Prop :=
  l.Pairwise (fun a b => a.start_time ≤ b.start_time)

instance : DecidableRel (fun a b : TTSSegment => a.start_time ≤ b.start_time) :=
  fun a b => inferInstanceAs (Decidable (a.start_time ≤ b.start_time))

/-- C1 counterexample: a narration of 9 seconds is below the 10 second
floor, yet the composed duration is max(10, 9+2) = 11, not the floor. -/
theorem c1_counterexample : (9 : ℚ) < 10 ∧ composeVideoDuration 9 ≠ 10 := by
  constructor
  · norm_num
  · unfold composeVideoDuration
    rw [max_eq_right (by norm_num : (10 : ℚ) ≤ 9 + 2)]
    norm_num

/-- C1 (amended): the composed output duration equals the floor Tmin = 10
only when Td + 2 stays below it (Td below 8 seconds), and equals
Td + fixed_padding = Td + 2 as soon as Td + 2 reaches the floor; the output
is never below the floor, and for Td at or above the floor it is Td + 2. -/
theorem c1_compose_duration_amended (td : ℚ) :
    (composeVideoDuration td = if td + 2 < 10 then 10 else td + 2) ∧
    10 ≤ composeVideoDuration td ∧
    (10 ≤ td → composeVideoDuration td = td + 2) := by
  refine ⟨?_, le_max_left _ _, ?_⟩
  · unfold composeVideoDuration
    rcases lt_or_le (td + 2) 10 with h | h
    · rw [if_pos h, max_eq_left h.le]
    · rw [if_neg (not_lt.mpr h), max_eq_right h]
  · intro h
    unfold composeVideoDuration
    rw [max_eq_right (by linarith)]

/-- C1 witness: the amended rule evaluated at Td = 12. -/
theorem c1_witness : composeVideoDuration 12 = 12 + 2 :=
  (c1_compose_duration_amended 12).2.2 (by norm_num)

/-- C5: the Edge-TTS path with no word boundary events sets total_duration
to 0 while falling back to five-second estimated segments, so the last
segment ends at 5 and the invariant total_duration at least the last end
time fails on this input. -/
theorem c5_edge_no_timings_duration_bug :
    (edgeTTSResult "Hi." []).total_duration = 0 ∧
    (edgeTTSResult "Hi." []).segments.map TTSSegment.end_time = [5] ∧
    ¬ ((5 : ℚ) ≤ 0) := by
  refine ⟨rfl, ?_, by norm_num⟩
  have h : (edgeTTSResult "Hi." []).segments.map TTSSegment.end_time
      = [0 + ((1 : ℕ) : ℚ) / ((1 : ℕ) : ℚ) * 5] := rfl
  rw [h]
  norm_num

/-- C6 counterexample: with a single wrapped line the panel height is
90 + max(62, 120) + 70 + 80 = 360, not the 302 the claimed formula gives. -/
theorem c6_counterexample :
    cardTotalHeight 1 = 360 ∧ 90 + 1 * 62 + 70 + 2 * 40 = 302 ∧
      (360 : ℕ) ≠ 302 := by decide

/-- C6 (amended): the panel height is header + max(line_count x 62, 120) +
footer + 2 x padding, which agrees with the claimed formula once the line
count is at least 2; height is monotone in the line count; the card image
width is fixed, independent of the text, and the image height follows the
panel height with the 8 pixel shadow border. -/
theorem c6_card_layout_amended :
    (∀ n, cardTotalHeight n = 90 + max (n * 62) 120 + 70 + 2 * 40) ∧
    (∀ n, 2 ≤ n → cardTotalHeight n = 90 + n * 62 + 70 + 2 * 40) ∧
    (∀ m n, m ≤ n → cardTotalHeight m ≤ cardTotalHeight n) ∧
    (∀ cfg l1 l2 nm hd li rt cm hl v1 v2,
      (createTweetCard cfg l1 nm hd li rt cm hl v1).width
        = (createTweetCard cfg l2 nm hd li rt cm hl v2).width) ∧
    (∀ cfg lines nm hd li rt cm hl v,
      (createTweetCard cfg lines nm hd li rt cm hl v).height
        = cardTotalHeight lines.length + 8 * 2) := by
  refine ⟨?_, ?_, ?_, ?_, ?_⟩
  · intro n; unfold cardTotalHeight cardTextHeight; omega
  · intro n h; unfold cardTotalHeight cardTextHeight; omega
  · intro m n h; unfold cardTotalHeight cardTextHeight
    have : m * 62 ≤ n * 62 := Nat.mul_le_mul_right _ h
    omega
  · intro cfg l1 l2 nm hd li rt cm hl v1 v2; rfl
  · intro cfg lines nm hd li rt cm hl v; rfl

/-- C6 witness: the claimed formula holds at three lines. -/
theorem c6_witness : cardTotalHeight 3 = 90 + 3 * 62 + 70 + 2 * 40 :=
  c6_card_layout_amended.2.1 3 (by norm_num)

/-- C7 counterexample: two calls with identical arguments but distinct
outcomes of the randint(100, 500) draw on the shared global generator
produce different cards, so rendering is not a pure function of the
arguments alone. -/
theorem c7_counterexample :
    createTweetCard {} ["Hi"] "A" "@a" "1" "2" "3" false 100 ≠
      createTweetCard {} ["Hi"] "A" "@a" "1" "2" "3" false 101 ∧
    100 ≤ 100 ∧ 100 ≤ 500 ∧ 100 ≤ 101 ∧ 101 ≤ 500 := by decide

/-- C7 (amended): rendering is deterministic up to the views counter: every
drawn datum other than the views string depends only on the arguments, so
two calls with identical arguments differ at most in the views field, and
calls with identical arguments and an equal random draw are identical. -/
theorem c7_deterministic_modulo_views (cfg : VideoConfig) (lines : List String)
    (nm hd li rt cm : String) (hl : Bool) (r1 r2 : ℕ) :
    { createTweetCard cfg lines nm hd li rt cm hl r1 with
        views := (createTweetCard cfg lines nm hd li rt cm hl r2).views }
      = createTweetCard cfg lines nm hd li rt cm hl r2 := rfl

/-- C9: the estimation path is total on degenerate input: an empty sentence
split yields the single full-text, full-duration segment, a zero total word
count turns the denominator into 1, and the denominator is positive for
every input text. -/
theorem c9_estimation_degenerate_safety (t : String) (D : ℚ) :
    (splitSentences t = [] → estimateSegments t D = [⟨t, 0, D⟩]) ∧
    (totalWords t = 0 → estDenominator t = 1) ∧
    0 < estDenominator t := by
  refine ⟨?_, ?_, ?_⟩
  · intro h
    unfold estimateSegments
    rw [h]
    simp
  · intro h
    unfold estDenominator
    rw [if_pos h]
  · unfold estDenominator
    split <;> omega

/-- C9 witness: the degenerate rules evaluated on the empty text. -/
theorem c9_witness :
    estimateSegments "" 7 = [⟨"", 0, 7⟩] ∧ estDenominator "" = 1 :=
  ⟨(c9_estimation_degenerate_safety "" 7).1 (by decide),
   (c9_estimation_degenerate_safety "" 7).2.1 (by decide)⟩

/-- A joke id returned by fetch_joke is never one already in the ledger:
either the top joke is fresh, or the alternative list was filtered. -/
theorem fetchJoke_not_generated (st : BotState) (top : Option String)
    (more : List String) (j : String) (h : fetchJoke st top more = some j) :
    isAlreadyGenerated st j = false := by
  cases top with
  | none => simp [fetchJoke] at h
  | some x =>
    simp only [fetchJoke] at h
    by_cases hx : isAlreadyGenerated st x = true
    · rw [if_pos hx] at h
      have hp := List.find?_some h
      simpa using hp
    · rw [if_neg hx] at h
      have hxj : x = j := by simpa using h
      subst hxj
      simpa using hx

/-- A run that returns a published id fetched that id. -/
theorem runPipeline_snd_some (st : BotState) (top : Option String)
    (more : List String) (u p : Bool) (pid : String)
    (h : (runPipeline st top more u p).2 = some pid) :
    fetchJoke st top more = some pid := by
  cases hf : fetchJoke st top more with
  | none =>
    simp only [runPipeline, hf] at h
    exact h
  | some q =>
    simp only [runPipeline, hf] at h
    split at h
    · have hq : q = pid := by simpa using h
      rw [hq]
    · simp at h

/-- A fetched id lands in the generated ledger of the run, whatever the
upload flags: the append happens before the publish attempt. -/
theorem runPipeline_gen_of_fetch (st : BotState) (top : Option String)
    (more : List String) (u p : Bool) (pid : String)
    (h : fetchJoke st top more = some pid) :
    pid ∈ (runPipeline st top more u p).1.generated_posts := by
  simp only [runPipeline, h]
  split <;> simp

/-- A run never publishes an id already present in the generated ledger. -/
theorem runPipeline_skips_generated (st : BotState) (top : Option String)
    (more : List String) (u p : Bool) (pid : String)
    (hmem : pid ∈ st.generated_posts) :
    (runPipeline st top more u p).2 ≠ some pid := by
  intro hcon
  have hf := runPipeline_snd_some st top more u p pid hcon
  have hfresh := fetchJoke_not_generated st top more pid hf
  unfold isAlreadyGenerated at hfresh
  simp at hfresh
  exact hfresh hmem

/-- C8: running the pipeline twice never publishes the same content id
twice: a run that publishes an id first appends it to the generated ledger,
so the second run skips it; the id is recorded even when the publish attempt
fails (flag false), so a publish failure cannot cause regeneration; and a
run whose ledger already holds the id never publishes it. -/
theorem c8_dedup_idempotent (st : BotState) (t1 : Option String)
    (m1 : List String) (u1 p1 : Bool) (t2 : Option String) (m2 : List String)
    (u2 p2 : Bool) (pid : String) :
    (¬ ((runPipeline st t1 m1 u1 p1).2 = some pid ∧
        (runPipeline (runPipeline st t1 m1 u1 p1).1 t2 m2 u2 p2).2 = some pid)) ∧
    (fetchJoke st t1 m1 = some pid →
        pid ∈ (runPipeline st t1 m1 u1 false).1.generated_posts) ∧
    (pid ∈ st.generated_posts → (runPipeline st t1 m1 u1 p1).2 ≠ some pid) := by
  refine ⟨?_, ?_, ?_⟩
  · rintro ⟨h1, h2⟩
    have hf := runPipeline_snd_some st t1 m1 u1 p1 pid h1
    have hmem := runPipeline_gen_of_fetch st t1 m1 u1 p1 pid hf
    exact runPipeline_skips_generated _ t2 m2 u2 p2 pid hmem h2
  · intro hf
    exact runPipeline_gen_of_fetch st t1 m1 u1 false pid hf
  · intro hmem
    exact runPipeline_skips_generated st t1 m1 u1 p1 pid hmem

/-- C8 witness: a ledger already holding the id makes the run publish
nothing for it, even with upload enabled and succeeding. -/
theorem c8_witness :
    (runPipeline ⟨["post1"], []⟩ (some "post1") [] true true).2 ≠ some "post1" :=
  (c8_dedup_idempotent ⟨["post1"], []⟩ (some "post1") [] true true none [] true
      true "post1").2.2 (by decide)

/-- C10 counterexample: with both inputs ordered by start time (singletons),
the combined list of generate_with_pause need not be ordered, because a
setup segment may start after setup.total_duration + pause. -/
theorem c10_counterexample :
    sortedByStart [(⟨"a", 100, 101⟩ : TTSSegment)] ∧
    sortedByStart [(⟨"b", 0, 1⟩ : TTSSegment)] ∧
    ¬ sortedByStart
        (generateWithPause ⟨[⟨"a", 100, 101⟩], 1⟩ ⟨[⟨"b", 0, 1⟩], 1⟩ 0).segments := by
  refine ⟨by simp [sortedByStart], by simp [sortedByStart], ?_⟩
  intro hcon
  simp [generateWithPause, shiftSeg, sortedByStart, List.pairwise_cons] at hcon

/-- C10 (amended): generate_with_pause returns the setup segments followed
by the punchline segments shifted by setup.total_duration + pause, texts
unchanged, and total duration the sum of the three parts; when the punchline
has at least one segment the final segment is its shifted last segment; and
the combined sequence is ordered by start time provided both inputs are
ordered, the pause is nonnegative, every setup segment starts within
setup.total_duration and every punchline segment starts at or after 0. -/
theorem c10_pause_combination (setup punchline : TTSResult) (pause : ℚ) :
    (generateWithPause setup punchline pause).segments
        = setup.segments ++
            punchline.segments.map (shiftSeg (setup.total_duration + pause)) ∧
    (generateWithPause setup punchline pause).segments.map TTSSegment.text
        = setup.segments.map TTSSegment.text
            ++ punchline.segments.map TTSSegment.text ∧
    (generateWithPause setup punchline pause).total_duration
        = setup.total_duration + pause + punchline.total_duration ∧
    (punchline.segments ≠ [] →
      (generateWithPause setup punchline pause).segments.getLast?
        = punchline.segments.getLast?.map
            (shiftSeg (setup.total_duration + pause))) ∧
    (0 ≤ pause →
      (∀ s ∈ setup.segments, s.start_time ≤ setup.total_duration) →
      (∀ s ∈ punchline.segments, 0 ≤ s.start_time) →
      sortedByStart setup.segments →
      sortedByStart punchline.segments →
      sortedByStart (generateWithPause setup punchline pause).segments) := by
  refine ⟨rfl, ?_, rfl, ?_, ?_⟩
  · simp [generateWithPause, shiftSeg]
  · intro h
    obtain ⟨a, ha⟩ := Option.isSome_iff_exists.mp (List.getLast?_isSome.mpr h)
    simp [generateWithPause, List.getLast?_append, List.getLast?_map, ha]
  · intro hpause hsetup hpunch hs1 hs2
    simp only [generateWithPause, sortedByStart]
    rw [List.pairwise_append]
    refine ⟨hs1, ?_, ?_⟩
    · rw [List.pairwise_map]
      refine hs2.imp ?_
      intro a b hab
      simp only [shiftSeg]
      linarith
    · intro a ha b hb
      rcases List.mem_map.mp hb with ⟨b0, hb0, rfl⟩
      have h1 := hsetup a ha
      have h2 := hpunch b0 hb0
      simp only [shiftSeg]
      linarith

/-- C10 witness: the amended combination evaluated on one-segment setup and
punchline results: the final segment is the shifted punchline segment and
the combined list is ordered. -/
theorem c10_witness :
    (generateWithPause ⟨[⟨"s", 0, 1⟩], 1⟩ ⟨[⟨"p", 0, 1⟩], 1⟩ 0).segments.getLast?
        = ([(⟨"p", 0, 1⟩ : TTSSegment)].getLast?).map (shiftSeg ((1 : ℚ) + 0)) ∧
    sortedByStart (generateWithPause ⟨[⟨"s", 0, 1⟩], 1⟩ ⟨[⟨"p", 0, 1⟩], 1⟩ 0).segments :=
  ⟨(c10_pause_combination ⟨[⟨"s", 0, 1⟩], 1⟩ ⟨[⟨"p", 0, 1⟩], 1⟩ 0).2.2.2.1
      (by simp),
   (c10_pause_combination ⟨[⟨"s", 0, 1⟩], 1⟩ ⟨[⟨"p", 0, 1⟩], 1⟩ 0).2.2.2.2
      (by norm_num) (by norm_num) (by norm_num)
      (by simp [sortedByStart]) (by simp [sortedByStart])⟩

/-- The first group of a nonempty word list starts with its first word. -/
theorem groupWords_cons (w : WordTiming) (rest : List WordTiming) :
    ∃ tl gs, groupWords (w :: rest) = (w, tl) :: gs := by
  unfold groupWords
  split
  · exact ⟨[], groupWords rest, rfl⟩
  · split
    · exact ⟨[], [], rfl⟩
    · next g gs _ => exact ⟨g.1 :: g.2, gs, rfl⟩

/-- The source segmentation loop agrees with the reference grouping builder
for every accumulator and start cursor. -/
theorem segLoop_eq_buildSegAux (wts : List WordTiming) :
    ∀ (cur : String) (s : ℚ),
    segLoop wts cur s = buildSegAux (groupWords wts) cur s := by
  induction wts with
  | nil => intro cur s; rfl
  | cons w rest ih =>
    intro cur s
    by_cases hc : (isSentenceEnd w.text || rest.isEmpty) = true
    · rw [segLoop, if_pos hc, groupWords, if_pos hc, buildSegAux]
      have htext : groupRawText cur (w, []) = cur ++ w.text ++ " " := rfl
      have hlast : groupLastWord (w, []) = w := rfl
      rw [htext, hlast, ih]
      cases rest with
      | nil => rfl
      | cons next rest2 =>
        obtain ⟨tl, gs, hg⟩ := groupWords_cons next rest2
        rw [hg]
        have hfs : firstGroupStart ((next, tl) :: gs) = next.start := rfl
        have hrs : restStart (next :: rest2) = next.start := rfl
        rw [hfs, hrs]
    · rw [segLoop, if_neg hc, groupWords, if_neg hc]
      cases rest with
      | nil => simp at hc
      | cons next rest2 =>
        obtain ⟨tl, gs, hg⟩ := groupWords_cons next rest2
        rw [hg, buildSegAux, ih, hg, buildSegAux]
        have htext : groupRawText cur (w, (next, tl).1 :: (next, tl).2)
            = groupRawText (cur ++ w.text ++ " ") (next, tl) := by
          simp [groupRawText, groupMembers]
        have hlast : groupLastWord (w, (next, tl).1 :: (next, tl).2)
            = groupLastWord (next, tl) := by
          simp only [groupLastWord]
          exact List.getLastD_cons w next tl
        rw [htext, hlast]

/-- The groups partition the word stream: flattening them restores it. -/
theorem groupWords_flatten (wts : List WordTiming) :
    ((groupWords wts).map groupMembers).flatten = wts := by
  induction wts with
  | nil => rfl
  | cons w rest ih =>
    rw [groupWords]
    split
    · simpa [groupMembers] using ih
    · cases hg : groupWords rest with
      | nil =>
        cases rest with
        | nil => simp [groupMembers]
        | cons a b =>
          obtain ⟨tl, gs, hc⟩ := groupWords_cons a b
          rw [hc] at hg
          exact absurd hg (by simp)
      | cons g gs =>
        rw [hg] at ih
        simpa [groupMembers] using ih

/-- Data of the running-text fold: each word contributes its characters
followed by one space, after the accumulator. -/
theorem foldl_words_data (ws : List WordTiming) :
    ∀ cur : String,
    (ws.foldl (fun a w => a ++ w.text ++ " ") cur).data
      = cur.data ++ (ws.map (fun w => w.text.data ++ [' '])).flatten := by
  induction ws with
  | nil => intro cur; simp
  | cons w rest ih =>
    intro cur
    rw [List.foldl_cons, ih]
    have hsp : (" " : String).data = [' '] := rfl
    simp [hsp]

/-- Flattening words-with-trailing-space is the space-joined form followed
by one final space. -/
theorem flatten_words_eq (ws : List String) (h : ws ≠ []) :
    (ws.map (fun w => w.data ++ [' '])).flatten = (sepConcat ws).data ++ [' '] := by
  match ws, h with
  | [w], _ =>
    rw [show sepConcat [w] = w from rfl]
    simp
  | w :: x :: ws, _ =>
    have ih := flatten_words_eq (x :: ws) (by simp)
    rw [show sepConcat (w :: x :: ws) = w ++ " " ++ sepConcat (x :: ws) from rfl]
    have hsp : (" " : String).data = [' '] := rfl
    rw [List.map_cons, List.flatten_cons, ih]
    simp [hsp]

/-- The space-joined form of clean nonempty words is a nonempty character
list. -/
theorem sepConcat_data_ne_nil (ws : List String) (h : ws ≠ [])
    (hcl : ∀ w ∈ ws, cleanWord w) : (sepConcat ws).data ≠ [] := by
  match ws, h with
  | [w], _ =>
    rw [show sepConcat [w] = w from rfl]
    exact (hcl w (by simp)).1
  | w :: x :: ws, _ =>
    rw [show sepConcat (w :: x :: ws) = w ++ " " ++ sepConcat (x :: ws) from rfl]
    have hw := (hcl w (by simp)).1
    simp only [String.data_append]
    intro hcon
    exact hw (List.append_eq_nil.mp (List.append_eq_nil.mp hcon).1).1

/-- The first character of the space-joined form of clean words is not
whitespace. -/
theorem sepConcat_head_not_ws (ws : List String)
    (hcl : ∀ w ∈ ws, cleanWord w) :
    ∀ c, (sepConcat ws).data.head? = some c → c.isWhitespace = false := by
  match ws with
  | [] => intro c hc; simp [show sepConcat [] = "" from rfl] at hc
  | [w] =>
    intro c hc
    rw [show sepConcat [w] = w from rfl] at hc
    obtain ⟨ys, hys⟩ := List.head?_eq_some_iff.mp hc
    exact (hcl w (by simp)).2 c (by rw [hys]; simp)
  | w :: x :: ws =>
    intro c hc
    rw [show sepConcat (w :: x :: ws) = w ++ " " ++ sepConcat (x :: ws) from rfl]
      at hc
    obtain ⟨hne, hw⟩ := hcl w (by simp)
    obtain ⟨c0, t0, ht0⟩ := List.exists_cons_of_ne_nil hne
    rw [String.data_append, String.data_append, ht0] at hc
    simp at hc
    exact hc ▸ hw c0 (by rw [ht0]; simp)

/-- The last character of the space-joined form of clean nonempty words is
not whitespace. -/
theorem sepConcat_last_not_ws (ws : List String) (h : ws ≠ [])
    (hcl : ∀ w ∈ ws, cleanWord w) :
    ∀ c, (sepConcat ws).data.getLast? = some c → c.isWhitespace = false := by
  match ws, h with
  | [w], _ =>
    intro c hc
    rw [show sepConcat [w] = w from rfl] at hc
    exact (hcl w (by simp)).2 c (List.mem_of_mem_getLast? (Option.mem_def.mpr hc))
  | w :: x :: ws, _ =>
    intro c hc
    have ih := sepConcat_last_not_ws (x :: ws) (by simp)
      (fun u hu => hcl u (by simp [hu]))
    have hrest := sepConcat_data_ne_nil (x :: ws) (by simp)
      (fun u hu => hcl u (by simp [hu]))
    obtain ⟨c1, t1, ht1⟩ := List.exists_cons_of_ne_nil hrest
    rw [show sepConcat (w :: x :: ws) = w ++ " " ++ sepConcat (x :: ws) from rfl]
      at hc
    rw [String.data_append, String.data_append, List.getLast?_append,
      List.getLast?_append] at hc
    rw [ht1] at hc
    have hsome : (c1 :: t1).getLast? = some ((c1 :: t1).getLast (by simp)) := by
      simp [List.getLast?_eq_getLast]
    rw [hsome] at hc
    simp at hc
    exact ih _ (by rw [ht1, hsome, hc])

/-- Stripping a character list that starts and ends with non-whitespace and
carries one trailing space removes exactly that space. -/
theorem stripChars_append_space (l : List Char) (hne : l ≠ [])
    (hh : ∀ c, l.head? = some c → c.isWhitespace = false)
    (hl : ∀ c, l.getLast? = some c → c.isWhitespace = false) :
    stripChars (l ++ [' ']) = l := by
  obtain ⟨c, t, rfl⟩ := List.exists_cons_of_ne_nil hne
  have hc : c.isWhitespace = false := hh c rfl
  unfold stripChars
  have h1 : List.dropWhile Char.isWhitespace ((c :: t) ++ [' '])
      = (c :: t) ++ [' '] := by
    rw [List.cons_append, List.dropWhile_cons, hc]
    simp
  rw [h1]
  have h2 : ((c :: t) ++ [' ']).reverse = ' ' :: (c :: t).reverse := by simp
  rw [h2]
  have h3 : List.dropWhile Char.isWhitespace (' ' :: (c :: t).reverse)
      = List.dropWhile Char.isWhitespace ((c :: t).reverse) := by
    rw [List.dropWhile_cons, show (' ').isWhitespace = true from rfl]
    simp
  rw [h3]
  obtain ⟨c2, t2, hrev⟩ : ∃ c2 t2, (c :: t).reverse = c2 :: t2 :=
    List.exists_cons_of_ne_nil (by simp)
  have hc2 : c2.isWhitespace = false := by
    apply hl
    rw [List.getLast?_eq_head?_reverse, hrev]
    rfl
  have h4 : List.dropWhile Char.isWhitespace (c2 :: t2) = c2 :: t2 := by
    rw [List.dropWhile_cons, hc2]
    simp
  rw [hrev, h4, ← hrev, List.reverse_reverse]

/-- The stripped running text of a nonempty list of clean words is exactly
the words joined by single spaces. -/
theorem pyStrip_fold_eq_sepConcat (ws : List WordTiming) (hne : ws ≠ [])
    (hcl : ∀ w ∈ ws, cleanWord w.text) :
    pyStrip (ws.foldl (fun a w => a ++ w.text ++ " ") "")
      = sepConcat (ws.map (fun w => w.text)) := by
  have hclS : ∀ s ∈ ws.map (fun w => w.text), cleanWord s := by
    intro s hs
    obtain ⟨w, hw, rfl⟩ := List.mem_map.mp hs
    exact hcl w hw
  have hneS : ws.map (fun w => w.text) ≠ [] := by simpa using hne
  apply String.ext
  show stripChars ((ws.foldl (fun a w => a ++ w.text ++ " ") "").data)
      = (sepConcat (ws.map (fun w => w.text))).data
  rw [foldl_words_data ws ""]
  have hmap : ws.map (fun w => w.text.data ++ [' '])
      = (ws.map (fun w => w.text)).map (fun s => s.data ++ [' ']) := by
    rw [List.map_map]
    rfl
  rw [show ("" : String).data = [] from rfl, List.nil_append, hmap,
    flatten_words_eq _ hneS]
  exact stripChars_append_space _ (sepConcat_data_ne_nil _ hneS hclS)
    (sepConcat_head_not_ws _ hclS) (sepConcat_last_not_ws _ hneS hclS)

/-- Texts of the reference builder output, one per group. -/
theorem buildSegAux_map_text (gs : List (WordTiming × List WordTiming)) :
    ∀ s : ℚ, (buildSegAux gs "" s).map TTSSegment.text
      = gs.map (fun g => pyStrip (groupRawText "" g)) := by
  induction gs with
  | nil => intro s; rfl
  | cons g gs ih => intro s; simp [buildSegAux, ih]

/-- Every word of a group of the grouping comes from the word stream. -/
theorem groupMembers_subset (wts : List WordTiming)
    (g : WordTiming × List WordTiming) (hg : g ∈ groupWords wts)
    (w : WordTiming) (hw : w ∈ groupMembers g) : w ∈ wts := by
  rw [← groupWords_flatten wts]
  exact List.mem_flatten.mpr ⟨groupMembers g, List.mem_map_of_mem _ hg, hw⟩

/-- Space-joining distributes over list append for nonempty parts. -/
theorem sepConcat_append (xs ys : List String) (hx : xs ≠ []) (hy : ys ≠ []) :
    sepConcat (xs ++ ys) = sepConcat xs ++ " " ++ sepConcat ys := by
  match xs, hx with
  | [x], _ =>
    obtain ⟨y, ys2, rfl⟩ := List.exists_cons_of_ne_nil hy
    rfl
  | x1 :: x2 :: xs, _ =>
    have ih := sepConcat_append (x2 :: xs) ys (by simp) hy
    show x1 ++ " " ++ sepConcat ((x2 :: xs) ++ ys)
        = (x1 ++ " " ++ sepConcat (x2 :: xs)) ++ " " ++ sepConcat ys
    rw [ih]
    apply String.ext
    simp

/-- Space-joining the space-joins of nonempty groups is the space-join of
the flattened list. -/
theorem sepConcat_flatten (lss : List (List String))
    (h : ∀ ls ∈ lss, ls ≠ []) :
    sepConcat (lss.map sepConcat) = sepConcat lss.flatten := by
  match lss with
  | [] => rfl
  | [ls] =>
    show sepConcat [sepConcat ls] = sepConcat (ls ++ [])
    rw [List.append_nil]
    rfl
  | ls1 :: ls2 :: lss =>
    have ih := sepConcat_flatten (ls2 :: lss) (fun u hu => h u (by simp [hu]))
    have hfl : (ls2 :: lss).flatten ≠ [] := by
      rw [List.flatten_cons]
      intro hcon
      exact h ls2 (by simp) (List.append_eq_nil.mp hcon).1
    calc sepConcat ((ls1 :: ls2 :: lss).map sepConcat)
        = sepConcat ls1 ++ " " ++ sepConcat ((ls2 :: lss).map sepConcat) := rfl
      _ = sepConcat ls1 ++ " " ++ sepConcat (ls2 :: lss).flatten := by rw [ih]
      _ = sepConcat (ls1 ++ (ls2 :: lss).flatten) :=
          (sepConcat_append _ _ (h ls1 (by simp)) hfl).symm
      _ = sepConcat ((ls1 :: ls2 :: lss).flatten) := by
          simp only [List.flatten_cons]

/-- C2 counterexample: a single word starting at second 1 yields a segment
whose start time is the initial cursor 0, not the start of its first word. -/
theorem c2_counterexample :
    (createSegmentsFromTimings "Hi." [⟨"Hi.", 1, 1/2⟩]).map TTSSegment.start_time
      = [0] ∧ (0 : ℚ) ≠ 1 := ⟨rfl, by norm_num⟩

/-- C2 (amended): on every nonempty word-timing sequence the Segmenter
output is the reference grouping build: segments correspond to the maximal
word groups closed exactly at words ending in a sentence ender or at the
last word; each segment ends at start+duration of its last word; the first
segment starts at the initial cursor 0 and every later segment starts at the
start of the first word of its own group (silence gaps preserved); and on
Scenario A the output is the single segment from 0 to 0.7. -/
theorem c2_segmenter_amended :
    (∀ (t : String) (wts : List WordTiming), wts ≠ [] →
      createSegmentsFromTimings t wts = buildSegAux (groupWords wts) "" 0) ∧
    createSegmentsFromTimings "Why not?"
        [⟨"Why", 0, 3/10⟩, ⟨"not?", 3/10, 2/5⟩]
      = [⟨"Why not?", 0, 7/10⟩] := by
  constructor
  · intro t wts h
    unfold createSegmentsFromTimings
    rw [if_neg (by simpa using h)]
    exact segLoop_eq_buildSegAux wts "" 0
  · have h : createSegmentsFromTimings "Why not?"
        [⟨"Why", 0, 3/10⟩, ⟨"not?", 3/10, 2/5⟩]
        = [⟨"Why not?", 0, (3/10 : ℚ) + 2/5⟩] := rfl
    rw [h]
    norm_num

/-- C2 witness: the refinement evaluated on a one-word stream. -/
theorem c2_witness :
    createSegmentsFromTimings "Hi." [⟨"Hi.", 0, 1⟩]
      = buildSegAux (groupWords [⟨"Hi.", 0, 1⟩]) "" 0 :=
  c2_segmenter_amended.1 "Hi." [⟨"Hi.", 0, 1⟩] (List.cons_ne_nil _ _)

/-- C3 counterexample: on the empty word-timing sequence the function does
not return the empty segment list: it falls back to the five-second
estimation on the text. -/
theorem c3_counterexample :
    createSegmentsFromTimings "Hi." [] = [⟨"Hi.", 0, 5⟩] ∧
    createSegmentsFromTimings "Hi." [] ≠ [] := by
  have h : createSegmentsFromTimings "Hi." []
      = [⟨"Hi.", 0, 0 + ((1 : ℕ) : ℚ) / ((1 : ℕ) : ℚ) * 5⟩] := rfl
  constructor
  · rw [h]
    norm_num
  · rw [h]
    simp

/-- C3 (amended): on every nonempty word-timing sequence whose word texts
are nonempty and whitespace-free, the whitespace-normalized concatenation of
the output segment texts equals the space-joined input words; the groups
behind the segments partition the word stream, so every word lands in
exactly one segment; on the empty sequence the function returns the
five-second estimation fallback on the text instead of the empty list. -/
theorem c3_partition_amended :
    (∀ (t : String) (wts : List WordTiming), wts ≠ [] →
      (∀ w ∈ wts, cleanWord w.text) →
      sepConcat ((createSegmentsFromTimings t wts).map TTSSegment.text)
        = sepConcat (wts.map (fun w => w.text))) ∧
    (∀ wts : List WordTiming, ((groupWords wts).map groupMembers).flatten = wts) ∧
    (∀ t : String, createSegmentsFromTimings t [] = estimateSegments t 5) := by
  refine ⟨?_, groupWords_flatten, fun t => rfl⟩
  intro t wts hne hcl
  unfold createSegmentsFromTimings
  rw [if_neg (by simpa using hne), segLoop_eq_buildSegAux, buildSegAux_map_text]
  have hpoint : ∀ g ∈ groupWords wts,
      pyStrip (groupRawText "" g)
        = sepConcat ((groupMembers g).map (fun w => w.text)) := by
    intro g hg
    exact pyStrip_fold_eq_sepConcat (groupMembers g) (by simp [groupMembers])
      (fun w hw => hcl w (groupMembers_subset wts g hg w hw))
  rw [List.map_congr_left hpoint]
  have h2 : (groupWords wts).map
        (fun g => sepConcat ((groupMembers g).map (fun w => w.text)))
      = ((groupWords wts).map
          (fun g => (groupMembers g).map (fun w => w.text))).map sepConcat := by
    rw [List.map_map]
    rfl
  have hstep : ((groupWords wts).map
        (fun g => (groupMembers g).map (fun w => w.text))).flatten
      = wts.map (fun w => w.text) := by
    have h1 : (groupWords wts).map
          (fun g => (groupMembers g).map (fun w => w.text))
        = ((groupWords wts).map groupMembers).map
            (List.map (fun w => w.text)) := by
      rw [List.map_map]
      rfl
    rw [h1, ← List.map_flatten, groupWords_flatten]
  rw [h2, sepConcat_flatten _ ?hne2, hstep]
  case hne2 =>
    intro ls hls
    obtain ⟨g, hg, rfl⟩ := List.mem_map.mp hls
    simp [groupMembers]

/-- C3 witness: the partition property evaluated on a two-word stream. -/
theorem c3_witness :
    sepConcat ((createSegmentsFromTimings "Why not?"
        [⟨"Why", 0, 1⟩, ⟨"not?", 1, 1⟩]).map TTSSegment.text)
      = sepConcat ([(⟨"Why", 0, 1⟩ : WordTiming), ⟨"not?", 1, 1⟩].map
          (fun w => w.text)) :=
  c3_partition_amended.1 "Why not?" [⟨"Why", 0, 1⟩, ⟨"not?", 1, 1⟩]
    (List.cons_ne_nil _ _) (by decide)

/-- Texts of the allocation loop output, one per sentence. -/
theorem allocLoop_map_text (pairs : List (String × ℕ)) (tw : ℕ) (D : ℚ) :
    ∀ t, (allocLoop pairs tw D t).map TTSSegment.text = pairs.map Prod.fst := by
  induction pairs with
  | nil => intro t; rfl
  | cons p rest ih =>
    intro t
    obtain ⟨s, wc⟩ := p
    simp [allocLoop, ih]

/-- Durations of the allocation loop output: word count over denominator,
scaled by the total. -/
theorem allocLoop_durations (pairs : List (String × ℕ)) (tw : ℕ) (D : ℚ) :
    ∀ t, (allocLoop pairs tw D t).map (fun sg => sg.end_time - sg.start_time)
      = pairs.map (fun p => (p.2 : ℚ) / (tw : ℚ) * D) := by
  induction pairs with
  | nil => intro t; rfl
  | cons p rest ih =>
    intro t
    obtain ⟨s, wc⟩ := p
    simp [allocLoop, ih]

/-- The first allocated segment starts at the incoming cursor. -/
theorem allocLoop_head_start (pairs : List (String × ℕ)) (tw : ℕ) (D : ℚ)
    (t : ℚ) (h : pairs ≠ []) :
    (allocLoop pairs tw D t).head?.map TTSSegment.start_time = some t := by
  obtain ⟨p, rest, rfl⟩ := List.exists_cons_of_ne_nil h
  obtain ⟨s, wc⟩ := p
  rfl

/-- Consecutive allocated segments are gapless: each ends where the next
starts. -/
theorem allocLoop_chain (pairs : List (String × ℕ)) (tw : ℕ) (D : ℚ) :
    ∀ t, List.Chain' (fun a b => a.end_time = b.start_time)
      (allocLoop pairs tw D t) := by
  induction pairs with
  | nil => intro t; simp [allocLoop]
  | cons p rest ih =>
    intro t
    obtain ⟨s, wc⟩ := p
    rw [allocLoop]
    apply List.Chain'.cons' (ih _)
    intro y hy
    cases rest with
    | nil => simp [allocLoop] at hy
    | cons q rest2 =>
      obtain ⟨s2, wc2⟩ := q
      simp only [allocLoop, List.head?_cons, Option.mem_def, Option.some.injEq]
        at hy
      rw [← hy]

/-- A dropWhile result never starts with an element satisfying the
predicate. -/
theorem head?_dropWhile_false (p : α → Bool) (l : List α) (c : α)
    (h : (l.dropWhile p).head? = some c) : p c = false := by
  have hh := List.head?_dropWhile_not p l
  rw [h] at hh
  exact hh

/-- The stripped text never starts with whitespace. -/
theorem stripChars_head (l : List Char) (c : Char) (t2 : List Char)
    (h : stripChars l = c :: t2) : c.isWhitespace = false := by
  unfold stripChars at h
  have hsplit := List.takeWhile_append_dropWhile
    (p := Char.isWhitespace) (l := (l.dropWhile Char.isWhitespace).reverse)
  have h2 : ((l.dropWhile Char.isWhitespace).reverse.takeWhile Char.isWhitespace
        ++ (l.dropWhile Char.isWhitespace).reverse.dropWhile Char.isWhitespace).reverse
      = l.dropWhile Char.isWhitespace := by
    rw [hsplit, List.reverse_reverse]
  rw [List.reverse_append, h] at h2
  apply head?_dropWhile_false Char.isWhitespace l
  rw [← h2]
  simp

/-- Every piece produced by the sentence splitter is empty or starts with a
non-whitespace character, provided the input text starts with one and the
accumulator holds a piece that started with one. -/
theorem sentSplitGo_pieces (l : List Char) :
    ∀ (sk pe : Bool) (acc : List Char),
      (sk = true → acc = []) →
      (sk = false → acc = [] → ∀ c t2, l = c :: t2 → c.isWhitespace = false) →
      (∀ c, acc.getLast? = some c → c.isWhitespace = false) →
      ∀ p ∈ sentSplitGo l sk pe acc,
        p = [] ∨ ∃ c t2, p = c :: t2 ∧ c.isWhitespace = false := by
  induction l with
  | nil =>
    intro sk pe acc h1 h2 h3 p hp
    simp only [sentSplitGo, List.mem_singleton] at hp
    subst hp
    cases hacc : acc with
    | nil => left; simp [hacc]
    | cons a as =>
      right
      subst hacc
      obtain ⟨c, t2, hrev⟩ := List.exists_cons_of_ne_nil
        (show (a :: as).reverse ≠ [] by simp)
      refine ⟨c, t2, hrev, h3 c ?_⟩
      rw [List.getLast?_eq_head?_reverse, hrev]
      rfl
  | cons ch rest ih =>
    intro sk pe acc h1 h2 h3 p hp
    rw [sentSplitGo] at hp
    split at hp
    · next hsk =>
      split at hp
      · exact ih true false acc (fun _ => h1 hsk)
          (fun hcon => Bool.noConfusion hcon) h3 p hp
      · next hw =>
        refine ih false (isEnderChar ch) [ch]
          (fun hcon => Bool.noConfusion hcon)
          (fun _ hcon => absurd hcon (by simp)) ?_ p hp
        intro c hc
        simp only [List.getLast?_singleton, Option.some.injEq] at hc
        subst hc
        simpa using hw
    · next hsk =>
      have hskf : sk = false := by simpa using hsk
      split at hp
      · rcases List.mem_cons.mp hp with hp1 | hp2
        · subst hp1
          cases hacc : acc with
          | nil => left; simp [hacc]
          | cons a as =>
            right
            subst hacc
            obtain ⟨c, t2, hrev⟩ := List.exists_cons_of_ne_nil
              (show (a :: as).reverse ≠ [] by simp)
            refine ⟨c, t2, hrev, h3 c ?_⟩
            rw [List.getLast?_eq_head?_reverse, hrev]
            rfl
        · exact ih true false [] (fun _ => rfl)
            (fun hcon => Bool.noConfusion hcon)
            (by intro c hc; simp at hc) p hp2
      · refine ih false (isEnderChar ch) (ch :: acc)
          (fun hcon => Bool.noConfusion hcon)
          (fun _ hcon => absurd hcon (by simp)) ?_ p hp
        intro c hc
        cases hacc : acc with
        | nil =>
          subst hacc
          simp only [List.getLast?_singleton, Option.some.injEq] at hc
          subst hc
          exact h2 hskf rfl ch rest rfl
        | cons a as =>
          apply h3
          subst hacc
          rw [List.getLast?_cons_cons] at hc
          exact hc

/-- Every sentence returned by the splitter starts with a non-whitespace
character. -/
theorem splitSentences_head_not_ws (text : String) :
    ∀ s ∈ splitSentences text,
      ∃ c t2, s.data = c :: t2 ∧ c.isWhitespace = false := by
  intro s hs
  unfold splitSentences at hs
  rw [List.mem_filter] at hs
  obtain ⟨hmem, hne⟩ := hs
  obtain ⟨p, hp, rfl⟩ := List.mem_map.mp hmem
  have hinv := sentSplitGo_pieces (stripChars text.data) false false []
    (fun hcon => Bool.noConfusion hcon)
    (fun _ _ c t2 h => stripChars_head text.data c t2 h)
    (by intro c hc; simp at hc)
    p hp
  rcases hinv with h0 | ⟨c, t2, rfl, hcws⟩
  · subst h0
    simp at hne
  · exact ⟨c, t2, rfl, hcws⟩

/-- The tokenizer inside a word always emits at least that word. -/
theorem tokenize_inword_ne_nil (l : List Char) :
    ∀ acc, tokenize l true acc ≠ [] := by
  induction l with
  | nil => intro acc; simp [tokenize]
  | cons c rest ih =>
    intro acc
    by_cases hw : c.isWhitespace = true
    · simp [tokenize, hw]
    · simp only [tokenize, hw]
      simpa using ih (c :: acc)

/-- A string starting with a non-whitespace character splits into at least
one word. -/
theorem pySplitWs_pos (s : String) (c : Char) (t2 : List Char)
    (hd : s.data = c :: t2) (hc : c.isWhitespace = false) :
    1 ≤ (pySplitWs s).length := by
  unfold pySplitWs
  rw [hd]
  have hstep : tokenize (c :: t2) false [] = tokenize t2 true [c] := by
    rw [tokenize]
    simp [hc]
  rw [hstep, List.length_map]
  exact List.length_pos.mpr (tokenize_inword_ne_nil t2 [c])

/-- Every sentence of the split carries at least one word. -/
theorem splitSentences_words_pos (text : String) :
    ∀ s ∈ splitSentences text, 1 ≤ (pySplitWs s).length := by
  intro s hs
  obtain ⟨c, t2, hd, hc⟩ := splitSentences_head_not_ws text s hs
  exact pySplitWs_pos s c t2 hd hc

/-- C4: on text with at least one sentence, the estimation path allocates
each sentence a duration proportional to its word count over the total word
count times the total duration; texts are the sentences in order; start
times accumulate gaplessly from 0 (each segment ends where the next starts);
and the allocated durations sum to the total duration exactly in rational
arithmetic. -/
theorem c4_estimation_allocation (t : String) (D : ℚ)
    (h : splitSentences t ≠ []) :
    (estimateSegments t D).map TTSSegment.text = splitSentences t ∧
    (estimateSegments t D).map (fun sg => sg.end_time - sg.start_time)
      = (splitSentences t).map
          (fun s => ((pySplitWs s).length : ℚ) / (totalWords t : ℚ) * D) ∧
    (estimateSegments t D).head?.map TTSSegment.start_time = some 0 ∧
    List.Chain' (fun a b => a.end_time = b.start_time) (estimateSegments t D) ∧
    ((estimateSegments t D).map (fun sg => sg.end_time - sg.start_time)).sum
      = D := by
  have hlen : (sentenceWordCounts t).length = (splitSentences t).length := by
    simp [sentenceWordCounts]
  have htot : 1 ≤ totalWords t := by
    obtain ⟨s0, rest, hs⟩ := List.exists_cons_of_ne_nil h
    have hmem : (pySplitWs s0).length ∈ sentenceWordCounts t := by
      unfold sentenceWordCounts
      exact List.mem_map_of_mem _ (by rw [hs]; simp)
    have hle := List.le_sum_of_mem hmem
    have hword := splitSentences_words_pos t s0 (by rw [hs]; simp)
    unfold totalWords
    omega
  have hden : estDenominator t = totalWords t := by
    unfold estDenominator
    rw [if_neg (by omega)]
  have hE : estimateSegments t D
      = allocLoop ((splitSentences t).zip (sentenceWordCounts t))
          (totalWords t) D 0 := by
    unfold estimateSegments
    rw [if_neg (by simpa using h), hden]
  have hdur : (estimateSegments t D).map (fun sg => sg.end_time - sg.start_time)
      = (splitSentences t).map
          (fun s => ((pySplitWs s).length : ℚ) / (totalWords t : ℚ) * D) := by
    rw [hE, allocLoop_durations]
    have hz : ((splitSentences t).zip (sentenceWordCounts t)).map
          (fun p => ((p.2 : ℚ)) / (totalWords t : ℚ) * D)
        = (((splitSentences t).zip (sentenceWordCounts t)).map Prod.snd).map
            (fun (n : ℕ) => ((n : ℚ)) / (totalWords t : ℚ) * D) := by
      rw [List.map_map]
      rfl
    rw [hz, List.map_snd_zip _ _ (le_of_eq hlen)]
    unfold sentenceWordCounts
    rw [List.map_map]
    rfl
  refine ⟨?_, hdur, ?_, ?_, ?_⟩
  · rw [hE, allocLoop_map_text, List.map_fst_zip _ _ (le_of_eq hlen.symm)]
  · rw [hE]
    apply allocLoop_head_start
    intro hcon
    apply h
    have hlz := congrArg List.length hcon
    rw [List.length_zip, hlen, Nat.min_self] at hlz
    exact List.length_eq_zero.mp hlz
  · rw [hE]
    exact allocLoop_chain _ _ _ _
  · rw [hdur]
    have hstep : (splitSentences t).map
          (fun s => ((pySplitWs s).length : ℚ) / (totalWords t : ℚ) * D)
        = (splitSentences t).map
            (fun s => ((pySplitWs s).length : ℚ) * (D / (totalWords t : ℚ))) := by
      apply List.map_congr_left
      intro a _
      ring
    rw [hstep, List.sum_map_mul_right]
    have hcast : ((splitSentences t).map
          (fun s => ((pySplitWs s).length : ℚ))).sum
        = ((totalWords t : ℕ) : ℚ) := by
      unfold totalWords sentenceWordCounts
      rw [Nat.cast_list_sum, List.map_map]
      rfl
    rw [hcast]
    have hW : ((totalWords t : ℕ) : ℚ) ≠ 0 := Nat.cast_ne_zero.mpr (by omega)
    field_simp

/-- C4 witness: Scenario B, the two-sentence four-second text, through the
allocation theorem. -/
theorem c4_witness :
    splitSentences "Hi there. Bye now." ≠ [] ∧
    (estimateSegments "Hi there. Bye now." 4).map
        (fun sg => sg.end_time - sg.start_time)
      = (splitSentences "Hi there. Bye now.").map
          (fun s => ((pySplitWs s).length : ℚ)
            / (totalWords "Hi there. Bye now." : ℚ) * 4) ∧
    ((estimateSegments "Hi there. Bye now." 4).map
        (fun sg => sg.end_time - sg.start_time)).sum = 4 :=
  ⟨by decide,
   (c4_estimation_allocation "Hi there. Bye now." 4 (by decide)).2.1,
   (c4_estimation_allocation "Hi there. Bye now." 4 (by decide)).2.2.2.2⟩
